import Mathlib

/-!
Verification development for the H-matrix block compressor of the bempp
repository (`hmat::HMatrixAcaCompressor`, file
`hmatrix_aca_compressor_impl.hpp`).

The C++ code is shallowly embedded as follows.
* `double` values are modelled as exact rationals (`ℚ`); the non-finite
  IEEE values (NaN, ±Inf) that the final self-comparison check looks for
  are modelled separately by `FMat`, whose entries are `Option ℚ` with
  `none` standing for a non-finite double.
* Eigen dynamic matrices become `Mat`: a pair of dimensions together with
  an entry function that is masked to `0` outside the stated bounds.
  Eigen operations whose preconditions the source may violate
  (`block`, products and sums with mismatched dimensions, writing a
  column that does not exist) are embedded as `Option`-valued operations
  returning `none` exactly when Eigen's runtime assertion would fail
  (release builds make the same situations undefined behaviour).
* `std::size_t` subtraction, whose wrap-around matters for the sampler,
  is `sizeSub` (exact integer subtraction reduced mod `2 ^ 64`).
* The single `static std::random_device generator` has no internal state
  that the program can seed or replay; each call of `randomIndex`
  consumes one fresh ordinal from it.  The embedding therefore passes
  the drawn ordinal explicitly: `randomIndex` receives it as an
  argument, and `compressBlock` receives the whole entropy stream as a
  function from the iteration counter to the ordinal drawn there.
* The `while` loop of `randomIndex` is embedded with explicit fuel; the
  fuel is chosen large enough that `none` is only returned when the C++
  loop would scan past the end of the index range.
-/

attribute [local semireducible] Rat.add Rat.sub Rat.mul Rat.inv Rat.ofScientific

namespace Hmat

/-- Eigen-style dynamic matrix over exact rationals.  Entries are total
functions; every constructor used by the embedding masks entries outside
`rows × cols` to `0`. -/
structure Mat where
  rows : Nat
  cols : Nat
  entry : Nat → Nat → ℚ

/-- Smart constructor: masks the entry function outside the bounds. -/
def Mat.ofFun (r c : Nat) (f : Nat → Nat → ℚ) : Mat :=
  ⟨r, c, fun i j => if i < r ∧ j < c then f i j else 0⟩

/-- Extensional equality on the stated bounds (decidable, used by the
concrete evaluations). -/
def Mat.matEq (m n : Mat) : Prop :=
  m.rows = n.rows ∧ m.cols = n.cols ∧
    ∀ i < m.rows, ∀ j < m.cols, m.entry i j = n.entry i j

instance (m n : Mat) : Decidable (m.matEq n) := by
  unfold Mat.matEq; infer_instance

/-- `m.block(i, j, p, q)` of Eigen: the `p × q` sub-matrix anchored at
`(i, j)`.  `none` when the block does not fit (Eigen assertion). -/
def Mat.blockChecked (m : Mat) (i j p q : Nat) : Option Mat :=
  if i + p ≤ m.rows ∧ j + q ≤ m.cols then
    some (Mat.ofFun p q (fun r c => m.entry (i + r) (j + c)))
  else none

/-- Matrix product; `none` on inner-dimension mismatch (Eigen assertion). -/
def Mat.mulChecked (a b : Mat) : Option Mat :=
  if a.cols = b.rows then
    some (Mat.ofFun a.rows b.cols
      (fun i j => ∑ k ∈ Finset.range a.cols, a.entry i k * b.entry k j))
  else none

/-- Matrix difference; `none` on shape mismatch (Eigen assertion). -/
def Mat.subChecked (a b : Mat) : Option Mat :=
  if a.rows = b.rows ∧ a.cols = b.cols then
    some (Mat.ofFun a.rows a.cols (fun i j => a.entry i j - b.entry i j))
  else none

/-- `m.col(k) = c` of Eigen: write the column vector `c` into column `k`.
`none` when `k` is out of range or the shapes disagree. -/
def Mat.setColChecked (m : Mat) (k : Nat) (c : Mat) : Option Mat :=
  if k < m.cols ∧ c.rows = m.rows ∧ c.cols = 1 then
    some (Mat.ofFun m.rows m.cols
      (fun i j => if j = k then c.entry i 0 else m.entry i j))
  else none

/-- `m.row(k) = r` of Eigen: write the row vector `r` into row `k`. -/
def Mat.setRowChecked (m : Mat) (k : Nat) (r : Mat) : Option Mat :=
  if k < m.rows ∧ r.rows = 1 ∧ r.cols = m.cols then
    some (Mat.ofFun m.rows m.cols
      (fun i j => if i = k then r.entry 0 j else m.entry i j))
  else none

/-- Division of every entry by a scalar (`newRow / pivot` in the source). -/
def Mat.scalarDiv (m : Mat) (d : ℚ) : Mat :=
  Mat.ofFun m.rows m.cols (fun i j => m.entry i j / d)

/-- Index (into a linear enumeration `g`) of the first maximum among
`g 0, …, g n`; ties keep the earlier index, as Eigen's visitor does. -/
def argmaxUpTo (g : Nat → ℚ) : Nat → Nat
  | 0 => 0
  | n + 1 => if g (argmaxUpTo g n) < g (n + 1) then n + 1 else argmaxUpTo g n

/-- `m.cwiseAbs().maxCoeff(&maxRowInd, &maxColInd)` of the source: value
and position of the maximal absolute entry, visited in Eigen's
column-major order.  `none` on an empty matrix (Eigen assertion). -/
def Mat.cwiseAbsMax (m : Mat) : Option (ℚ × Nat × Nat) :=
  if 0 < m.rows ∧ 0 < m.cols then
    let g := fun n => |m.entry (n % m.rows) (n / m.rows)|
    let k := argmaxUpTo g (m.rows * m.cols - 1)
    some (g k, k % m.rows, k / m.rows)
  else none

/-- Squared Frobenius norm (sum of squared entries).  The source compares
products of Euclidean norms; all such comparisons between non-negative
quantities are carried out here on the squares, which is equivalent. -/
def Mat.frobSq (m : Mat) : ℚ :=
  ∑ i ∈ Finset.range m.rows, ∑ j ∈ Finset.range m.cols, (m.entry i j) ^ 2

/-- Matrix whose entries may be non-finite doubles: `none` models NaN or
±Infinity, `some q` a finite value. -/
structure FMat where
  rows : Nat
  cols : Nat
  entry : Nat → Nat → Option ℚ

/-- IEEE subtraction restricted to what the self-comparison check needs:
finite minus finite is finite; any operation on a non-finite operand
(including `Inf - Inf`) yields a non-finite result. -/
def fpSub : Option ℚ → Option ℚ → Option ℚ
  | some a, some b => some (a - b)
  | _, _ => none

/-- IEEE equality test as used by the check: a comparison involving a
NaN operand is `false`; the check only ever compares `x - x` with
itself, and `x - x` is NaN whenever `x` is non-finite. -/
def fpEq : Option ℚ → Option ℚ → Bool
  | some a, some b => decide (a = b)
  | _, _ => false

/-- `((M-M).array() == (M-M).array()).all()` of the source: `true` iff
every entry of `M` is finite. -/
def selfCmpAll (m : FMat) : Bool :=
  (List.range m.rows).all fun i =>
    (List.range m.cols).all fun j =>
      fpEq (fpSub (m.entry i j) (m.entry i j)) (fpSub (m.entry i j) (m.entry i j))

/-- The final validation of `compressBlock` (source lines 567–570),
kept verbatim: `!((A-A)==(A-A)).all() || ((B-B)==(B-B)).all()`.
Note that the source does not negate the `B` test. -/
def nanCheckRaises (a b : FMat) : Bool :=
  (!selfCmpAll a) || selfCmpAll b

/-- A `Mat` (exact rationals) viewed as an all-finite `FMat`. -/
def Mat.toF (m : Mat) : FMat :=
  ⟨m.rows, m.cols, fun i j => some (m.entry i j)⟩

/-! ## The random pivot sampler (`randomIndex`, source lines 608–636) -/

/-- `std::size_t` subtraction: exact difference reduced modulo `2 ^ 64`. -/
def sizeSub (x y : Nat) : Nat :=
  (((x : Int) - (y : Int)) % ((2 : Int) ^ 64)).toNat

/-- `range[1] - range[0] - previousIndices.size()` of the source, in
`size_t` arithmetic. -/
def numberOfPossibleIndices (range : Nat × Nat) (used : Finset Nat) : Nat :=
  sizeSub (sizeSub range.2 range.1) used.card

/-- The scanning `while` loop of `randomIndex`, with explicit fuel.
State: `newIndex` is the cursor, `count` the number of unused indices
seen so far; the loop runs while `count ≤ ind`. -/
def scanStep (used : Finset Nat) (ind : Nat) : Nat → Nat → Nat → Option Nat
  | 0, _, _ => none
  | fuel + 1, newIndex, count =>
    if count ≤ ind then
      if newIndex ∈ used then scanStep used ind fuel (newIndex + 1) count
      else if count + 1 ≤ ind then scanStep used ind fuel (newIndex + 1) (count + 1)
      else scanStep used ind fuel newIndex (count + 1)
    else some newIndex

/-- `randomIndex(range, previousIndices)` of the source.  The uniformly
drawn value `distribution(generator)` is the explicit argument
`ordinal`; the distribution's bounds are `[0, numberOfPossibleIndices - 1]`
in `size_t` arithmetic.  Returns the chosen index together with the
updated used-index set (the source inserts into `previousIndices` by
reference).  The fuel `range.2 + ordinal + used.card + 2` exceeds the
number of loop iterations whenever the scan stays inside the range. -/
def randomIndex (range : Nat × Nat) (used : Finset Nat) (ordinal : Nat) :
    Option (Nat × Finset Nat) :=
  match scanStep used ordinal (range.2 + ordinal + used.card + 2) range.1 0 with
  | none => none
  | some idx => some (idx, insert idx used)

/-- The unused indices of `[start, start+len)`, in increasing order. -/
def unusedList (used : Finset Nat) (start len : Nat) : List Nat :=
  (List.range' start len).filter fun i => decide (i ∉ used)

theorem unusedList_succ (used : Finset Nat) (start len : Nat) :
    unusedList used start (len + 1) =
      (if start ∈ used then [] else [start]) ++ unusedList used (start + 1) len := by
  unfold unusedList
  rw [List.range'_succ, List.filter_cons]
  by_cases h : start ∈ used <;> simp [h]

theorem unusedList_length :
    ∀ (len : Nat) (used : Finset Nat) (start : Nat),
      (∀ x ∈ used, start ≤ x ∧ x < start + len) →
      (unusedList used start len).length + used.card = len := by
  intro len
  induction len with
  | zero =>
    intro used start h
    have hu : used = ∅ := by
      apply Finset.eq_empty_of_forall_not_mem
      intro x hx
      have := h x hx
      omega
    simp [unusedList, hu]
  | succ n ih =>
    intro used start h
    by_cases hs : start ∈ used
    · have hcong : unusedList used (start + 1) n =
          unusedList (used.erase start) (start + 1) n := by
        unfold unusedList
        apply List.filter_congr
        intro x hx
        have hx' := List.mem_range'_1.mp hx
        have hne : x ≠ start := by omega
        simp [Finset.mem_erase, hne]
      have hstep := ih (used.erase start) (start + 1) (by
        intro x hx
        rcases Finset.mem_erase.mp hx with ⟨hne, hmem⟩
        have := h x hmem
        omega)
      rw [unusedList_succ, if_pos hs]
      simp only [List.nil_append]
      rw [hcong]
      have hc : (used.erase start).card + 1 = used.card :=
        Finset.card_erase_add_one hs
      omega
    · have hstep := ih used (start + 1) (by
        intro x hx
        have hb := h x hx
        have hne : x ≠ start := fun he => hs (he ▸ hx)
        omega)
      rw [unusedList_succ, if_neg hs]
      simp only [List.singleton_append, List.length_cons]
      omega

theorem unusedList_mem (used : Finset Nat) (start len x : Nat)
    (h : x ∈ unusedList used start len) :
    start ≤ x ∧ x < start + len ∧ x ∉ used := by
  unfold unusedList at h
  rcases List.mem_filter.mp h with ⟨hr, hd⟩
  have := List.mem_range'_1.mp hr
  exact ⟨this.1, this.2, by simpa using hd⟩

/-- Correctness of the scanning loop: started at the beginning of a
window `[newIndex, newIndex+len)` holding more than `ind - count` unused
indices, with enough fuel, it returns the `(ind - count)`-th unused
index of the window. -/
theorem scanStep_spec (used : Finset Nat) (ind : Nat) :
    ∀ len fuel newIndex count, len + 2 ≤ fuel → count ≤ ind →
      ind - count < (unusedList used newIndex len).length →
      scanStep used ind fuel newIndex count =
        (unusedList used newIndex len).get? (ind - count) := by
  intro len
  induction len with
  | zero =>
    intro fuel newIndex count _ _ h
    simp [unusedList] at h
  | succ n ih =>
    intro fuel newIndex count hfuel hcount h
    cases fuel with
    | zero => omega
    | succ f =>
    by_cases hs : newIndex ∈ used
    · have hlist : unusedList used newIndex (n + 1) = unusedList used (newIndex + 1) n := by
        rw [unusedList_succ, if_pos hs, List.nil_append]
      rw [hlist] at h ⊢
      rw [scanStep, if_pos hcount, if_pos hs]
      exact ih f (newIndex + 1) count (by omega) hcount h
    · have hlist : unusedList used newIndex (n + 1) =
          newIndex :: unusedList used (newIndex + 1) n := by
        rw [unusedList_succ, if_neg hs, List.singleton_append]
      rw [hlist] at h ⊢
      by_cases hlt : count + 1 ≤ ind
      · have h' : ind - (count + 1) < (unusedList used (newIndex + 1) n).length := by
          simp only [List.length_cons] at h
          omega
        have heq := ih f (newIndex + 1) (count + 1) (by omega) hlt h'
        rw [scanStep, if_pos hcount, if_neg hs, if_pos hlt, heq]
        have hidx : ind - count = (ind - (count + 1)) + 1 := by omega
        rw [hidx, List.get?_cons_succ]
      · have hind : ind = count := by omega
        rw [scanStep, if_pos hcount, if_neg hs, if_neg hlt]
        cases f with
        | zero => omega
        | succ f' =>
          rw [scanStep, if_neg (by omega)]
          have hz : ind - count = 0 := by omega
          rw [hz, List.get?_cons_zero]

/-- The scanning loop never returns an index from the used set. -/
theorem scanStep_not_used (used : Finset Nat) (ind : Nat) :
    ∀ fuel newIndex count idx, count ≤ ind →
      scanStep used ind fuel newIndex count = some idx → idx ∉ used := by
  intro fuel
  induction fuel with
  | zero => intro newIndex count idx _ h; simp [scanStep] at h
  | succ f ih =>
    intro newIndex count idx hcount h
    rw [scanStep, if_pos hcount] at h
    by_cases hs : newIndex ∈ used
    · rw [if_pos hs] at h
      exact ih (newIndex + 1) count idx hcount h
    · rw [if_neg hs] at h
      by_cases hlt : count + 1 ≤ ind
      · rw [if_pos hlt] at h
        exact ih (newIndex + 1) (count + 1) idx hlt h
      · rw [if_neg hlt] at h
        cases f with
        | zero => simp [scanStep] at h
        | succ f' =>
          rw [scanStep, if_neg (by omega)] at h
          injection h with h
          subst h
          exact hs

/-- Full correctness of `randomIndex`, packaged for reuse: given a used
set inside the non-empty range `[a, b)` and an ordinal below the number
of remaining indices, it returns the `ordinal`-th unused index of the
range and inserts it into the used set. -/
theorem sizeSub_of_le (x y : Nat) (hyx : y ≤ x) (hx : x - y < 2 ^ 64) :
    sizeSub x y = x - y := by
  unfold sizeSub
  omega

theorem randomIndex_correct (a b : Nat) (used : Finset Nat) (ordinal : Nat)
    (hab : a ≤ b) (hb : b < 2 ^ 64)
    (hsub : ∀ x ∈ used, a ≤ x ∧ x < b)
    (hord : ordinal < numberOfPossibleIndices (a, b) used) :
    ∃ h : ordinal < (unusedList used a (b - a)).length,
      randomIndex (a, b) used ordinal =
        some ((unusedList used a (b - a)).get ⟨ordinal, h⟩,
          insert ((unusedList used a (b - a)).get ⟨ordinal, h⟩) used) ∧
      a ≤ (unusedList used a (b - a)).get ⟨ordinal, h⟩ ∧
      (unusedList used a (b - a)).get ⟨ordinal, h⟩ < b ∧
      (unusedList used a (b - a)).get ⟨ordinal, h⟩ ∉ used := by
  have hlen : (unusedList used a (b - a)).length + used.card = b - a := by
    apply unusedList_length
    intro x hx
    have := hsub x hx
    omega
  have hcard : used.card ≤ b - a := by omega
  have hnposs : numberOfPossibleIndices (a, b) used =
      (unusedList used a (b - a)).length := by
    unfold numberOfPossibleIndices
    rw [sizeSub_of_le b a hab (by omega), sizeSub_of_le (b - a) used.card hcard (by omega)]
    omega
  rw [hnposs] at hord
  have hmem := unusedList_mem used a (b - a) _
    (List.get_mem (unusedList used a (b - a)) ordinal hord)
  refine ⟨hord, ?_, hmem.1, by omega, hmem.2.2⟩
  have hscan := scanStep_spec used ordinal (b - a)
    (b + ordinal + used.card + 2) a 0 (by omega) (by omega)
    (by simpa using hord)
  unfold randomIndex
  simp only [Nat.sub_zero] at hscan
  rw [hscan, List.get?_eq_get hord]

/-! ## The block compressor (`compressBlock`, source lines 458–573) -/

/-- A block-cluster-tree node as seen by the compressor: the row and
column index ranges of the two cluster-tree nodes it pairs, plus the
admissibility flag.  Ranges are half-open `[first, second)`. -/
structure BlockClusterTreeNode where
  rowClusterRange : Nat × Nat
  columnClusterRange : Nat × Nat
  admissible : Bool

/-- Modelled from the spec: the data accessor
(`m_dataAccessor.computeMatrixBlock`) is an external interface
("kernel/basis-function evaluation", out of scope for the source);
`Accessor.evaluate(rowRange, colRange, node) → dense matrix` returns the
exact kernel/basis values, here read off the global entry function `g`
over the requested sub-ranges. -/
def computeMatrixBlock (g : Nat → Nat → ℚ) (rowRange colRange : Nat × Nat) : Mat :=
  Mat.ofFun (rowRange.2 - rowRange.1) (colRange.2 - colRange.1)
    (fun i j => g (rowRange.1 + i) (colRange.1 + j))

/-- `evaluateMatMinusLowRank` (source lines 583–606), verbatim: the size
arguments of the `B` block are `(colEnd - colStart, B.rows())` exactly
as the source passes them to `Eigen::block(i, j, p, q)`, i.e. a block of
`colEnd - colStart` rows and `B.rows()` columns. -/
def evaluateMatMinusLowRank (g : Nat → Nat → ℚ) (node : BlockClusterTreeNode)
    (rowIndexRange columnIndexRange : Nat × Nat) (a b : Mat) : Option Mat :=
  let rowClusterRange := node.rowClusterRange
  let columnClusterRange := node.columnClusterRange
  let data := computeMatrixBlock g rowIndexRange columnIndexRange
  let rowStart := rowIndexRange.1 - rowClusterRange.1
  let rowEnd := rowIndexRange.2 - rowClusterRange.1
  let colStart := columnIndexRange.1 - columnClusterRange.1
  let colEnd := columnIndexRange.2 - columnClusterRange.1
  match a.blockChecked rowStart 0 (rowEnd - rowStart) a.cols with
  | none => none
  | some ablk =>
    match b.blockChecked 0 colStart (colEnd - colStart) b.rows with
    | none => none
    | some bblk =>
      match Mat.mulChecked ablk bblk with
      | none => none
      | some prod => Mat.subChecked data prod

/-- The residual evaluator as the specification words it:
`accessor.evaluate(range) − A[localRows, :] · B[:, localCols]`, i.e. the
`B` block has `B.rows()` rows and `colEnd - colStart` columns.  It is
stated only to be compared against `evaluateMatMinusLowRank`. -/
def evaluateMatMinusLowRankSpec (g : Nat → Nat → ℚ) (node : BlockClusterTreeNode)
    (rowIndexRange columnIndexRange : Nat × Nat) (a b : Mat) : Option Mat :=
  let rowClusterRange := node.rowClusterRange
  let columnClusterRange := node.columnClusterRange
  let data := computeMatrixBlock g rowIndexRange columnIndexRange
  let rowStart := rowIndexRange.1 - rowClusterRange.1
  let rowEnd := rowIndexRange.2 - rowClusterRange.1
  let colStart := columnIndexRange.1 - columnClusterRange.1
  let colEnd := columnIndexRange.2 - columnClusterRange.1
  match a.blockChecked rowStart 0 (rowEnd - rowStart) a.cols with
  | none => none
  | some ablk =>
    match b.blockChecked 0 colStart b.rows (colEnd - colStart) with
    | none => none
    | some bblk =>
      match Mat.mulChecked ablk bblk with
      | none => none
      | some prod => Mat.subChecked data prod

/-- Modelled from the spec: `HMatrixLowRankData::frobeniusNorm()` (the
class is not among the provided sources).  Per the spec the stopping
test's denominator is "the Frobenius norm of the approximation
accumulated so far", i.e. `‖A·B‖_F`; unused factor slots are zero, so
the full-width product equals the running approximation.  As everywhere
in this development the squared norm is used. -/
def lowRankFrobSq (a b : Mat) : ℚ :=
  Mat.frobSq (Mat.ofFun a.rows b.cols
    (fun i j => ∑ k ∈ Finset.range a.cols, a.entry i k * b.entry k j))

/-- The numerical floor `1E-12` of the degenerate-pivot test, as the
exact rational `10⁻¹²`. -/
def degenerateFloor : ℚ := 1 / 10 ^ 12

/-- Configuration of `HMatrixAcaCompressor`, fixed at construction. -/
structure AcaConfig where
  eps : ℚ
  maxRank : Nat
  resizeThreshold : Nat

/-- `newCol.norm() * newRow.norm() < m_eps * frobeniousNorm` (source
line 560), carried out on squares: for `eps ≥ 0` both sides are
non-negative and comparing squares is equivalent; for `eps < 0` the
source's comparison is false since its left side is non-negative. -/
def stopTest (cfg : AcaConfig) (newCol newRow : Mat) (frobSq : ℚ) : Bool :=
  decide (0 ≤ cfg.eps ∧ newCol.frobSq * newRow.frobSq < cfg.eps ^ 2 * frobSq)

/-- The amortized growth step (source lines 543–552): resize `A` by
`resizeThreshold` extra columns and `B` by `resizeThreshold` extra rows,
zero the new buffers and copy the old contents back in. -/
def growFactors (rt : Nat) (a b : Mat) : Mat × Mat :=
  (Mat.ofFun a.rows (a.cols + rt) (fun i j => if j < a.cols then a.entry i j else 0),
   Mat.ofFun (b.rows + rt) b.cols (fun i j => if i < b.rows then b.entry i j else 0))

/-- Mutable state of the ACA loop: the factor buffers referenced inside
the low-rank data object, the set of already used pivot rows and the
current rank.  (The source also declares `previousColumnIndices`, which
it never uses.) -/
structure AcaState where
  A : Mat
  B : Mat
  previousRowIndices : Finset Nat
  rankCount : Nat

/-- One trial of the ACA loop (source lines 501–562).  `ordinal` is the
value drawn from the random device for this trial.  Returns the new
state and whether the loop breaks; `none` models a failed Eigen
assertion (undefined behaviour in release builds). -/
def acaStep (cfg : AcaConfig) (g : Nat → Nat → ℚ) (node : BlockClusterTreeNode)
    (ordinal : Nat) (s : AcaState) : Option (AcaState × Bool) :=
  match randomIndex node.rowClusterRange s.previousRowIndices ordinal with
  | none => none
  | some (row, used') =>
    match evaluateMatMinusLowRank g node (row, row + 1) node.columnClusterRange s.A s.B with
    | none => none
    | some newRow0 =>
      match newRow0.cwiseAbsMax with
      | none => none
      | some (val, _, maxColInd) =>
        if val < degenerateFloor then
          some (⟨s.A, s.B, used', s.rankCount⟩, false)
        else
          let pivot := newRow0.entry 0 maxColInd
          let newRow := newRow0.scalarDiv pivot
          let c := maxColInd + node.columnClusterRange.1
          match evaluateMatMinusLowRank g node node.rowClusterRange (c, c + 1) s.A s.B with
          | none => none
          | some newCol =>
            let frobSqSoFar := lowRankFrobSq s.A s.B
            let grown := if s.rankCount = s.A.cols
              then growFactors cfg.resizeThreshold s.A s.B
              else (s.A, s.B)
            match grown.1.setColChecked s.rankCount newCol with
            | none => none
            | some newA =>
              match grown.2.setRowChecked s.rankCount newRow with
              | none => none
              | some newB =>
                some (⟨newA, newB, used', s.rankCount + 1⟩,
                  stopTest cfg newCol newRow frobSqSoFar)

/-- The `for` loop of `compressBlock`: at most `fuel` further trials,
the current one being trial `i`; `ords i` is the ordinal the shared
random device emits at trial `i`. -/
def acaLoop (cfg : AcaConfig) (g : Nat → Nat → ℚ) (node : BlockClusterTreeNode)
    (ords : Nat → Nat) : Nat → Nat → AcaState → Option AcaState
  | 0, _, s => some s
  | fuel + 1, i, s =>
    match acaStep cfg g node (ords i) s with
    | none => none
    | some (s', brk) => if brk then some s' else acaLoop cfg g node ords fuel (i + 1) s'

/-- The truncation of the factors to the final rank (source lines
563–566): nothing happens when the allocated width already equals
`rankCount`.  In the source the comparison is between unsigned values;
it coincides with truncated subtraction whenever `rankCount ≤ A.cols()`,
which the loop guarantees. -/
def truncateFactors (a b : Mat) (rankCount : Nat) : Option (Mat × Mat) :=
  if a.cols - rankCount > 0 then
    match a.blockChecked 0 0 a.rows rankCount with
    | none => none
    | some a' =>
      match b.blockChecked 0 0 rankCount b.cols with
      | none => none
      | some b' => some (a', b')
  else some (a, b)

/-- Contents of one block, dense or low-rank (`HMatrixData` variants). -/
inductive BlockData where
  | dense : Mat → BlockData
  | lowRank : Mat → Mat → BlockData

/-- Modelled from the spec: `HMatrixDenseCompressor::compressBlock`
(the class is not among the provided sources) "evaluates the full block
(rows×cols) via the kernel/basis accessor and stores it verbatim as
Dense.  No approximation." -/
def denseCompressBlock (g : Nat → Nat → ℚ) (node : BlockClusterTreeNode) : BlockData :=
  BlockData.dense (computeMatrixBlock g node.rowClusterRange node.columnClusterRange)

/-- What the caller observes after `compressBlock(node, hMatrixData)`
returns or throws: the contents left in `hMatrixData` (which the
function rebinds and fills through references before any validation)
and whether the `"NaN detected."` runtime error propagated. -/
structure CompressOutcome where
  data : BlockData
  raised : Bool

/-- `HMatrixAcaCompressor::compressBlock` (source lines 458–573).
`ords` is the stream of ordinals the static random device emits, one
per trial.  `none` models a failed Eigen assertion inside the loop.
`getBlockClusterTreeNodeDimensions` (not among the provided sources) is
inlined as the two cluster ranges together with their widths, which is
what `evaluateMatMinusLowRank`'s index arithmetic in the source
requires of it. -/
def compressBlock (cfg : AcaConfig) (g : Nat → Nat → ℚ)
    (node : BlockClusterTreeNode) (ords : Nat → Nat) : Option CompressOutcome :=
  if node.admissible = false then some ⟨denseCompressBlock g node, false⟩
  else
    let rowClusterRange := node.rowClusterRange
    let columnClusterRange := node.columnClusterRange
    let numberOfRows := rowClusterRange.2 - rowClusterRange.1
    let numberOfColumns := columnClusterRange.2 - columnClusterRange.1
    let a0 := Mat.ofFun numberOfRows cfg.resizeThreshold (fun _ _ => 0)
    let b0 := Mat.ofFun cfg.resizeThreshold numberOfColumns (fun _ _ => 0)
    let iterationLimit := min cfg.maxRank (min numberOfRows numberOfColumns)
    match acaLoop cfg g node ords iterationLimit 0 ⟨a0, b0, ∅, 0⟩ with
    | none => none
    | some s =>
      match truncateFactors s.A s.B s.rankCount with
      | none => none
      | some (a1, b1) =>
        some ⟨BlockData.lowRank a1 b1, nanCheckRaises a1.toF b1.toF⟩

/-! Projections of a `BlockData`, used to state decidable facts about
concrete runs. -/

/-- Number of columns of the `A` factor (the block's final rank), when
the block is low-rank. -/
def BlockData.lowRankCols : BlockData → Option Nat
  | BlockData.lowRank a _ => some a.cols
  | BlockData.dense _ => none

/-- Number of rows of the `B` factor, when the block is low-rank. -/
def BlockData.lowRankRowsOfB : BlockData → Option Nat
  | BlockData.lowRank _ b => some b.rows
  | BlockData.dense _ => none

/-- Whether the block holds a low-rank factor pair. -/
def BlockData.isLowRank : BlockData → Bool
  | BlockData.lowRank _ _ => true
  | BlockData.dense _ => false

/-- Entry of the `A` factor (`0` for a dense block). -/
def BlockData.aEntry : BlockData → Nat → Nat → ℚ
  | BlockData.lowRank a _, i, j => a.entry i j
  | BlockData.dense _, _, _ => 0

/-- Entry of the `B` factor (`0` for a dense block). -/
def BlockData.bEntry : BlockData → Nat → Nat → ℚ
  | BlockData.lowRank _ b, i, j => b.entry i j
  | BlockData.dense _, _, _ => 0

/-! ## Inversion and invariant lemmas about the ACA loop -/

theorem randomIndex_some_inv (range : Nat × Nat) (used : Finset Nat)
    (ordinal row : Nat) (used' : Finset Nat)
    (h : randomIndex range used ordinal = some (row, used')) :
    used' = insert row used ∧ row ∉ used := by
  unfold randomIndex at h
  cases hscan : scanStep used ordinal (range.2 + ordinal + used.card + 2) range.1 0 with
  | none => rw [hscan] at h; exact absurd h (by simp)
  | some idx =>
    rw [hscan] at h
    injection h with h
    have h1 : idx = row := congrArg Prod.fst h
    subst h1
    refine ⟨(congrArg Prod.snd h).symm, ?_⟩
    exact scanStep_not_used used ordinal _ range.1 0 idx (Nat.zero_le _) hscan

@[simp] theorem Mat.ofFun_rows (r c : Nat) (f : Nat → Nat → ℚ) :
    (Mat.ofFun r c f).rows = r := rfl

@[simp] theorem Mat.ofFun_cols (r c : Nat) (f : Nat → Nat → ℚ) :
    (Mat.ofFun r c f).cols = c := rfl

theorem setColChecked_inv (m : Mat) (k : Nat) (c : Mat) (m' : Mat)
    (h : m.setColChecked k c = some m') :
    k < m.cols ∧ m'.cols = m.cols ∧ m'.rows = m.rows := by
  unfold Mat.setColChecked at h
  split at h
  · injection h with h
    subst h
    simp_all
  · exact absurd h (by simp)

theorem setRowChecked_inv (m : Mat) (k : Nat) (r : Mat) (m' : Mat)
    (h : m.setRowChecked k r = some m') :
    k < m.rows ∧ m'.rows = m.rows ∧ m'.cols = m.cols := by
  unfold Mat.setRowChecked at h
  split at h
  · injection h with h
    subst h
    simp_all
  · exact absurd h (by simp)

@[simp] theorem growFactors_fst_cols (rt : Nat) (a b : Mat) :
    (growFactors rt a b).1.cols = a.cols + rt := rfl

@[simp] theorem growFactors_fst_rows (rt : Nat) (a b : Mat) :
    (growFactors rt a b).1.rows = a.rows := rfl

@[simp] theorem growFactors_snd_rows (rt : Nat) (a b : Mat) :
    (growFactors rt a b).2.rows = b.rows + rt := rfl

@[simp] theorem growFactors_snd_cols (rt : Nat) (a b : Mat) :
    (growFactors rt a b).2.cols = b.cols := rfl

/-- Master inversion for a successful `acaStep`: the pivot row comes
from `randomIndex` and is freshly inserted into the used set, and the
factors either stay untouched (degenerate pivot, no break) or receive
one more rank-one term, growing by `resizeThreshold` exactly when the
buffers were full. -/
theorem acaStep_inv (cfg : AcaConfig) (g : Nat → Nat → ℚ)
    (node : BlockClusterTreeNode) (ord : Nat) (s s' : AcaState) (brk : Bool)
    (h : acaStep cfg g node ord s = some (s', brk)) :
    ∃ row, randomIndex node.rowClusterRange s.previousRowIndices ord =
        some (row, s'.previousRowIndices) ∧
      s'.previousRowIndices = insert row s.previousRowIndices ∧
      row ∉ s.previousRowIndices ∧
      ((s'.A = s.A ∧ s'.B = s.B ∧ s'.rankCount = s.rankCount ∧ brk = false) ∨
       (s'.rankCount = s.rankCount + 1 ∧ s.rankCount < s'.A.cols ∧
        s'.A.cols = (if s.rankCount = s.A.cols then s.A.cols + cfg.resizeThreshold else s.A.cols) ∧
        s'.B.rows = (if s.rankCount = s.A.cols then s.B.rows + cfg.resizeThreshold else s.B.rows))) := by
  unfold acaStep at h
  cases hri : randomIndex node.rowClusterRange s.previousRowIndices ord with
  | none => rw [hri] at h; exact absurd h (by simp)
  | some p =>
  obtain ⟨row, used'⟩ := p
  rw [hri] at h
  simp only [] at h
  have hins := randomIndex_some_inv _ _ _ _ _ hri
  cases hev : evaluateMatMinusLowRank g node (row, row + 1) node.columnClusterRange s.A s.B with
  | none => rw [hev] at h; exact absurd h (by simp)
  | some newRow0 =>
  rw [hev] at h
  simp only [] at h
  cases hmax : newRow0.cwiseAbsMax with
  | none => rw [hmax] at h; exact absurd h (by simp)
  | some t =>
  obtain ⟨val, mr, mc⟩ := t
  rw [hmax] at h
  simp only [] at h
  by_cases hval : val < degenerateFloor
  · rw [if_pos hval] at h
    simp only [Option.some.injEq, Prod.mk.injEq] at h
    obtain ⟨h1, h2⟩ := h
    subst h1
    subst h2
    exact ⟨row, rfl, hins.1, hins.2, Or.inl ⟨rfl, rfl, rfl, rfl⟩⟩
  · rw [if_neg hval] at h
    cases hec : evaluateMatMinusLowRank g node node.rowClusterRange
        (mc + node.columnClusterRange.1, mc + node.columnClusterRange.1 + 1) s.A s.B with
    | none => rw [hec] at h; exact absurd h (by simp)
    | some newCol =>
    rw [hec] at h
    simp only [] at h
    by_cases hfull : s.rankCount = s.A.cols
    · rw [if_pos hfull] at h
      cases hsc : (growFactors cfg.resizeThreshold s.A s.B).1.setColChecked
          s.rankCount newCol with
      | none => rw [hsc] at h; exact absurd h (by simp)
      | some newA =>
      rw [hsc] at h
      simp only [] at h
      cases hsr : (growFactors cfg.resizeThreshold s.A s.B).2.setRowChecked
          s.rankCount (newRow0.scalarDiv (newRow0.entry 0 mc)) with
      | none => rw [hsr] at h; exact absurd h (by simp)
      | some newB =>
      rw [hsr] at h
      simp only [Option.some.injEq, Prod.mk.injEq] at h
      obtain ⟨h1, h2⟩ := h
      subst h1
      have hc := setColChecked_inv _ _ _ _ hsc
      have hr := setRowChecked_inv _ _ _ _ hsr
      simp only [growFactors_fst_cols, growFactors_snd_rows] at hc hr
      refine ⟨row, rfl, hins.1, hins.2, Or.inr ⟨rfl, ?_, ?_, ?_⟩⟩
      · show s.rankCount < newA.cols
        omega
      · show newA.cols = _
        rw [if_pos hfull]
        omega
      · show newB.rows = _
        rw [if_pos hfull]
        omega
    · rw [if_neg hfull] at h
      cases hsc : Mat.setColChecked s.A s.rankCount newCol with
      | none => rw [hsc] at h; exact absurd h (by simp)
      | some newA =>
      rw [hsc] at h
      simp only [] at h
      cases hsr : Mat.setRowChecked s.B s.rankCount
          (newRow0.scalarDiv (newRow0.entry 0 mc)) with
      | none => rw [hsr] at h; exact absurd h (by simp)
      | some newB =>
      rw [hsr] at h
      simp only [Option.some.injEq, Prod.mk.injEq] at h
      obtain ⟨h1, h2⟩ := h
      subst h1
      have hc := setColChecked_inv _ _ _ _ hsc
      have hr := setRowChecked_inv _ _ _ _ hsr
      refine ⟨row, rfl, hins.1, hins.2, Or.inr ⟨rfl, ?_, ?_, ?_⟩⟩
      · show s.rankCount < newA.cols
        omega
      · show newA.cols = _
        rw [if_neg hfull]
        omega
      · show newB.rows = _
        rw [if_neg hfull]
        omega

/-- Any state predicate preserved by `acaStep` is preserved by the loop. -/
theorem acaLoop_preserve (cfg : AcaConfig) (g : Nat → Nat → ℚ)
    (node : BlockClusterTreeNode) (ords : Nat → Nat) (P : AcaState → Prop)
    (hstep : ∀ ord s s' brk, P s → acaStep cfg g node ord s = some (s', brk) → P s') :
    ∀ fuel i s s', P s → acaLoop cfg g node ords fuel i s = some s' → P s' := by
  intro fuel
  induction fuel with
  | zero =>
    intro i s s' hP h
    unfold acaLoop at h
    injection h with h
    exact h ▸ hP
  | succ f ih =>
    intro i s s' hP h
    unfold acaLoop at h
    cases hs : acaStep cfg g node (ords i) s with
    | none => rw [hs] at h; exact absurd h (by simp)
    | some p =>
      obtain ⟨s1, brk⟩ := p
      rw [hs] at h
      simp only [] at h
      have hP1 := hstep _ _ _ _ hP hs
      by_cases hbrk : brk = true
      · rw [if_pos hbrk] at h
        injection h with h
        exact h ▸ hP1
      · rw [if_neg hbrk] at h
        exact ih (i + 1) s1 s' hP1 h

/-- Each trial adds at most one to the rank, so a loop with `fuel`
remaining trials adds at most `fuel`. -/
theorem acaLoop_rank_le (cfg : AcaConfig) (g : Nat → Nat → ℚ)
    (node : BlockClusterTreeNode) (ords : Nat → Nat) :
    ∀ fuel i s s', acaLoop cfg g node ords fuel i s = some s' →
      s'.rankCount ≤ s.rankCount + fuel := by
  intro fuel
  induction fuel with
  | zero =>
    intro i s s' h
    unfold acaLoop at h
    injection h with h
    subst h
    omega
  | succ f ih =>
    intro i s s' h
    unfold acaLoop at h
    cases hs : acaStep cfg g node (ords i) s with
    | none => rw [hs] at h; exact absurd h (by simp)
    | some p =>
      obtain ⟨s1, brk⟩ := p
      rw [hs] at h
      simp only [] at h
      have hrank : s1.rankCount ≤ s.rankCount + 1 := by
        obtain ⟨row, _, _, _, hcase⟩ := acaStep_inv _ _ _ _ _ _ _ hs
        rcases hcase with ⟨_, _, he, _⟩ | ⟨he, _, _, _⟩ <;> omega
      by_cases hbrk : brk = true
      · rw [if_pos hbrk] at h
        injection h with h
        subst h
        omega
      · rw [if_neg hbrk] at h
        have := ih (i + 1) s1 s' h
        omega

/-- The used-row set only ever grows along the loop (it is never reset
inside one `compressBlock` call). -/
theorem acaLoop_used_mono (cfg : AcaConfig) (g : Nat → Nat → ℚ)
    (node : BlockClusterTreeNode) (ords : Nat → Nat) :
    ∀ fuel i s s', acaLoop cfg g node ords fuel i s = some s' →
      s.previousRowIndices ⊆ s'.previousRowIndices := by
  intro fuel i s s' h
  refine acaLoop_preserve cfg g node ords
    (fun t => s.previousRowIndices ⊆ t.previousRowIndices) ?_ fuel i s s'
    (Finset.Subset.refl _) h
  intro ord t t' brk ht hstep
  obtain ⟨row, _, hins, _, _⟩ := acaStep_inv _ _ _ _ _ _ _ hstep
  rw [hins]
  exact ht.trans (Finset.subset_insert _ _)

/-! ## The all-zero block -/

theorem blockChecked_zero (m : Mat) (i j p q : Nat) (blk : Mat)
    (hm : ∀ r c, m.entry r c = 0) (h : m.blockChecked i j p q = some blk) :
    ∀ r c, blk.entry r c = 0 := by
  unfold Mat.blockChecked at h
  split at h
  · injection h with h
    subst h
    intro r c
    simp [Mat.ofFun, hm]
  · exact absurd h (by simp)

theorem mulChecked_zero (a b : Mat) (prod : Mat)
    (ha : ∀ r c, a.entry r c = 0) (h : Mat.mulChecked a b = some prod) :
    ∀ r c, prod.entry r c = 0 := by
  unfold Mat.mulChecked at h
  split at h
  · injection h with h
    subst h
    intro r c
    simp [Mat.ofFun, ha]
  · exact absurd h (by simp)

theorem subChecked_zero (a b : Mat) (d : Mat)
    (ha : ∀ r c, a.entry r c = 0) (hb : ∀ r c, b.entry r c = 0)
    (h : Mat.subChecked a b = some d) :
    ∀ r c, d.entry r c = 0 := by
  unfold Mat.subChecked at h
  split at h
  · injection h with h
    subst h
    intro r c
    simp [Mat.ofFun, ha, hb]
  · exact absurd h (by simp)

theorem computeMatrixBlock_zero (g : Nat → Nat → ℚ) (rr cr : Nat × Nat)
    (hg : ∀ i j, g i j = 0) :
    ∀ r c, (computeMatrixBlock g rr cr).entry r c = 0 := by
  intro r c
  simp [computeMatrixBlock, Mat.ofFun, hg]

theorem evaluateMatMinusLowRank_zero (g : Nat → Nat → ℚ)
    (node : BlockClusterTreeNode) (rr cr : Nat × Nat) (a b m : Mat)
    (hg : ∀ i j, g i j = 0) (ha : ∀ i j, a.entry i j = 0)
    (h : evaluateMatMinusLowRank g node rr cr a b = some m) :
    ∀ i j, m.entry i j = 0 := by
  unfold evaluateMatMinusLowRank at h
  simp only [] at h
  cases h1 : a.blockChecked (rr.1 - node.rowClusterRange.1) 0
      (rr.2 - node.rowClusterRange.1 - (rr.1 - node.rowClusterRange.1)) a.cols with
  | none => rw [h1] at h; exact absurd h (by simp)
  | some ablk =>
  rw [h1] at h
  simp only [] at h
  cases h2 : b.blockChecked 0 (cr.1 - node.columnClusterRange.1)
      (cr.2 - node.columnClusterRange.1 - (cr.1 - node.columnClusterRange.1)) b.rows with
  | none => rw [h2] at h; exact absurd h (by simp)
  | some bblk =>
  rw [h2] at h
  simp only [] at h
  cases h3 : Mat.mulChecked ablk bblk with
  | none => rw [h3] at h; exact absurd h (by simp)
  | some prod =>
  rw [h3] at h
  simp only [] at h
  exact subChecked_zero _ _ _ (computeMatrixBlock_zero g rr cr hg)
    (mulChecked_zero _ _ _ (blockChecked_zero _ _ _ _ _ _ ha h1) h3) h

theorem cwiseAbsMax_zero (m : Mat) (v : ℚ) (r c : Nat)
    (hm : ∀ i j, m.entry i j = 0) (h : m.cwiseAbsMax = some (v, r, c)) :
    v = 0 := by
  unfold Mat.cwiseAbsMax at h
  split at h
  · simp only [Option.some.injEq, Prod.mk.injEq] at h
    rw [← h.1, hm]
    simp
  · exact absurd h (by simp)

/-- On an all-zero accessor every trial hits the degenerate-pivot branch:
the state keeps its zero factors and zero rank. -/
theorem acaStep_zero (cfg : AcaConfig) (g : Nat → Nat → ℚ)
    (node : BlockClusterTreeNode) (ord : Nat) (s s' : AcaState) (brk : Bool)
    (hg : ∀ i j, g i j = 0)
    (h0 : (∀ i j, s.A.entry i j = 0) ∧ (∀ i j, s.B.entry i j = 0) ∧ s.rankCount = 0)
    (h : acaStep cfg g node ord s = some (s', brk)) :
    (∀ i j, s'.A.entry i j = 0) ∧ (∀ i j, s'.B.entry i j = 0) ∧ s'.rankCount = 0 := by
  unfold acaStep at h
  cases hri : randomIndex node.rowClusterRange s.previousRowIndices ord with
  | none => rw [hri] at h; exact absurd h (by simp)
  | some p =>
  obtain ⟨row, used'⟩ := p
  rw [hri] at h
  simp only [] at h
  cases hev : evaluateMatMinusLowRank g node (row, row + 1) node.columnClusterRange s.A s.B with
  | none => rw [hev] at h; exact absurd h (by simp)
  | some newRow0 =>
  rw [hev] at h
  simp only [] at h
  cases hmax : newRow0.cwiseAbsMax with
  | none => rw [hmax] at h; exact absurd h (by simp)
  | some t =>
  obtain ⟨val, mr, mc⟩ := t
  rw [hmax] at h
  simp only [] at h
  have hval : val = 0 :=
    cwiseAbsMax_zero _ _ _ _ (evaluateMatMinusLowRank_zero _ _ _ _ _ _ _ hg h0.1 hev) hmax
  rw [if_pos (by rw [hval]; unfold degenerateFloor; norm_num)] at h
  simp only [Option.some.injEq, Prod.mk.injEq] at h
  obtain ⟨h1, _⟩ := h
  subst h1
  exact h0

/-! ## Truncation and `compressBlock` inversion -/

/-- When the loop invariant `rankCount ≤ A.cols`, `A.cols = B.rows`
holds, truncation succeeds and cuts both factors to exactly the final
rank: `A` keeps `rankCount` columns and `B` keeps `rankCount` rows. -/
theorem truncateFactors_dims (a b : Mat) (rank : Nat) (a1 b1 : Mat)
    (hr : rank ≤ a.cols) (hcb : a.cols = b.rows)
    (h : truncateFactors a b rank = some (a1, b1)) :
    a1.cols = rank ∧ b1.rows = rank ∧ a1.rows = a.rows ∧ b1.cols = b.cols := by
  unfold truncateFactors at h
  by_cases hgt : a.cols - rank > 0
  · rw [if_pos hgt] at h
    unfold Mat.blockChecked at h
    rw [if_pos (by constructor <;> omega)] at h
    simp only [] at h
    rw [if_pos (by constructor <;> omega)] at h
    simp only [Option.some.injEq, Prod.mk.injEq] at h
    obtain ⟨h1, h2⟩ := h
    subst h1
    subst h2
    simp [Mat.ofFun]
  · rw [if_neg hgt] at h
    simp only [Option.some.injEq, Prod.mk.injEq] at h
    obtain ⟨h1, h2⟩ := h
    subst h1
    subst h2
    omega

/-- Unfolding of `compressBlock` on an admissible node: the caller's
`hMatrixData` receives the truncated loop factors, and the raise flag is
the NaN check applied to those same stored factors. -/
theorem compressBlock_admissible_inv (cfg : AcaConfig) (g : Nat → Nat → ℚ)
    (node : BlockClusterTreeNode) (ords : Nat → Nat) (out : CompressOutcome)
    (hadm : node.admissible = true)
    (h : compressBlock cfg g node ords = some out) :
    ∃ s a1 b1,
      acaLoop cfg g node ords
        (min cfg.maxRank (min (node.rowClusterRange.2 - node.rowClusterRange.1)
          (node.columnClusterRange.2 - node.columnClusterRange.1))) 0
        ⟨Mat.ofFun (node.rowClusterRange.2 - node.rowClusterRange.1)
            cfg.resizeThreshold (fun _ _ => 0),
         Mat.ofFun cfg.resizeThreshold
            (node.columnClusterRange.2 - node.columnClusterRange.1) (fun _ _ => 0),
         ∅, 0⟩ = some s ∧
      truncateFactors s.A s.B s.rankCount = some (a1, b1) ∧
      out = ⟨BlockData.lowRank a1 b1, nanCheckRaises a1.toF b1.toF⟩ := by
  unfold compressBlock at h
  rw [if_neg (show ¬node.admissible = false by simp [hadm])] at h
  simp only [] at h
  split at h
  · exact absurd h (by simp)
  next s hloop =>
    split at h
    · exact absurd h (by simp)
    next a1 b1 htr =>
      injection h with h
      exact ⟨s, a1, b1, hloop, htr, h.symm⟩

theorem frobSq_nonneg (m : Mat) : 0 ≤ m.frobSq :=
  Finset.sum_nonneg fun _ _ => Finset.sum_nonneg fun _ _ => sq_nonneg _

theorem lowRankFrobSq_nonneg (a b : Mat) : 0 ≤ lowRankFrobSq a b :=
  frobSq_nonneg _

/-- The squared comparison performed by `stopTest` agrees with the
source's comparison of Euclidean norms
`‖newCol‖ · ‖newRow‖ < eps · frobeniusNorm`. -/
theorem stopTest_iff_sqrt (cfg : AcaConfig) (c r : Mat) (f : ℚ) (hf : 0 ≤ f) :
    (stopTest cfg c r f = true ↔
      Real.sqrt (c.frobSq : ℝ) * Real.sqrt (r.frobSq : ℝ) <
        (cfg.eps : ℝ) * Real.sqrt (f : ℝ)) := by
  unfold stopTest
  rw [decide_eq_true_eq]
  have hcc : (0 : ℝ) ≤ (c.frobSq : ℝ) := by exact_mod_cast frobSq_nonneg c
  have hrr : (0 : ℝ) ≤ (r.frobSq : ℝ) := by exact_mod_cast frobSq_nonneg r
  have hff : (0 : ℝ) ≤ (f : ℝ) := by exact_mod_cast hf
  constructor
  · rintro ⟨heps, hlt⟩
    have heps' : (0 : ℝ) ≤ (cfg.eps : ℝ) := by exact_mod_cast heps
    have hlt' : (c.frobSq : ℝ) * (r.frobSq : ℝ) < (cfg.eps : ℝ) ^ 2 * (f : ℝ) := by
      exact_mod_cast hlt
    have h1 : Real.sqrt ((c.frobSq : ℝ) * (r.frobSq : ℝ)) <
        Real.sqrt ((cfg.eps : ℝ) ^ 2 * (f : ℝ)) :=
      Real.sqrt_lt_sqrt (by positivity) hlt'
    rw [Real.sqrt_mul hcc, Real.sqrt_mul (by positivity), Real.sqrt_sq heps'] at h1
    exact h1
  · intro hlt
    have h1 : (0 : ℝ) ≤ Real.sqrt (c.frobSq : ℝ) * Real.sqrt (r.frobSq : ℝ) := by positivity
    have h2 : (0 : ℝ) < (cfg.eps : ℝ) * Real.sqrt (f : ℝ) := lt_of_le_of_lt h1 hlt
    have hsf : (0 : ℝ) ≤ Real.sqrt (f : ℝ) := Real.sqrt_nonneg _
    have heps' : (0 : ℝ) < (cfg.eps : ℝ) := by nlinarith
    refine ⟨by exact_mod_cast heps'.le, ?_⟩
    have hsq : (Real.sqrt (c.frobSq : ℝ) * Real.sqrt (r.frobSq : ℝ)) ^ 2 <
        ((cfg.eps : ℝ) * Real.sqrt (f : ℝ)) ^ 2 := by
      apply pow_lt_pow_left₀ hlt h1
      omega
    rw [mul_pow, mul_pow, Real.sq_sqrt hcc, Real.sq_sqrt hrr, Real.sq_sqrt hff] at hsq
    exact_mod_cast hsq

/-! ## Claims -/

/-- C1: the final validation of `compressBlock` is wrong in the code.
The source tests `!selfCmpAll A || selfCmpAll B` (the negation on the
`B` test is missing), so (i) it raises on a factor pair whose entries
are all finite, (ii) it does not raise when `A` is finite but `B`
contains a non-finite entry, and (iii) a complete run of `compressBlock`
on a well-behaved admissible 2×1 block raises `"NaN detected."` even
though both returned factors are entirely finite — contradicting the
claim that it raises exactly on a NaN/Infinity entry. -/
theorem nanCheck_misfires :
    nanCheckRaises ⟨1, 1, fun _ _ => some 1⟩ ⟨1, 1, fun _ _ => some 1⟩ = true ∧
    nanCheckRaises ⟨1, 1, fun _ _ => some 1⟩ ⟨1, 1, fun _ _ => none⟩ = false ∧
    (compressBlock ⟨1 / 10000, 5, 1⟩ (fun _ _ => 1) ⟨(0, 2), (0, 1), true⟩ (fun _ => 0)).map
        (fun o => (o.raised, o.data.lowRankCols,
          o.data.aEntry 0 0, o.data.aEntry 1 0, o.data.bEntry 0 0)) =
      some (true, some 1, 1, 1, 1) :=
  ⟨by decide, by decide, by decide⟩

/-- The global matrix used by the C2 counterexample run. -/
def c2g : Nat → Nat → ℚ := fun i j => (i : ℚ) + (j : ℚ)

/-- The node of the C2 counterexample: cluster rows `[0,2)`, cluster
columns `[0,3)`. -/
def c2node : BlockClusterTreeNode := ⟨(0, 2), (0, 3), true⟩

/-- Factors for the C2 counterexample: `A` is 2×2 with only the first
column meaningful, `B` is 2×3 with only the first row meaningful; all
unused slots are exactly zero, as the residual-evaluator contract
requires. -/
def c2A : Mat := Mat.ofFun 2 2 fun i j => if i = 0 ∧ j = 0 then 1 else 0

/-- The `B` factor of the C2 counterexample. -/
def c2B : Mat := Mat.ofFun 2 3 fun i _ => if i = 0 then 1 else 0

/-- C2: the residual evaluator of the code does not compute
`accessor.evaluate(range) − A[localRows,:]·B[:,localCols]`.  The size
arguments of the `B` block are swapped (`B.block(0, colStart,
colEnd−colStart, B.rows())` instead of `B.block(0, colStart, B.rows(),
colEnd−colStart)`): on the one-row sub-range of a 2×3 block with
rank-one factors the code requests a 3×2 block of the 2×3 matrix `B`
and dies on Eigen's assertion (modelled by `none`), while the evaluator
the spec describes returns the correct residual row `(−1, 0, 1)`. -/
theorem evaluateMatMinusLowRank_swapped_block :
    (evaluateMatMinusLowRank c2g c2node (0, 1) (0, 3) c2A c2B).isNone = true ∧
    (evaluateMatMinusLowRankSpec c2g c2node (0, 1) (0, 3) c2A c2B).map
        (fun m => (m.rows, m.cols, m.entry 0 0, m.entry 0 1, m.entry 0 2)) =
      some (1, 3, -1, 0, 1) :=
  ⟨by decide, by decide⟩

/-- C3 counterexample: a concrete admissible 2×1 block on which
`compressBlock` raises the numerical error, yet the caller's
`hMatrixData` afterwards holds the accumulated low-rank factor pair
`A = (1,1)ᵀ`, `B = (1)` — refuting the claim that no partial output is
observable after the failed call. -/
theorem compressBlock_raises_but_emits :
    (compressBlock ⟨1 / 10000, 5, 1⟩ (fun _ _ => 1) ⟨(0, 2), (0, 1), true⟩ (fun _ => 0)).map
        (fun o => (o.raised, o.data.isLowRank, o.data.lowRankCols,
          o.data.aEntry 0 0, o.data.aEntry 1 0, o.data.bEntry 0 0)) =
      some (true, true, some 1, 1, 1, 1) := by
  decide

/-- C3 (amended): when `compressBlock` raises the numerical error on an
admissible block, the caller's `hMatrixData` does hold the truncated
partially accumulated factor pair: the factors are written through
references into the block data before the validation runs, and the
exception does not undo that. -/
theorem compressBlock_error_leaves_factors (cfg : AcaConfig) (g : Nat → Nat → ℚ)
    (node : BlockClusterTreeNode) (ords : Nat → Nat)
    (hadm : node.admissible = true)
    (hraised : (compressBlock cfg g node ords).map (fun o => o.raised) = some true) :
    ∃ s a1 b1,
      acaLoop cfg g node ords
        (min cfg.maxRank (min (node.rowClusterRange.2 - node.rowClusterRange.1)
          (node.columnClusterRange.2 - node.columnClusterRange.1))) 0
        ⟨Mat.ofFun (node.rowClusterRange.2 - node.rowClusterRange.1)
            cfg.resizeThreshold (fun _ _ => 0),
         Mat.ofFun cfg.resizeThreshold
            (node.columnClusterRange.2 - node.columnClusterRange.1) (fun _ _ => 0),
         ∅, 0⟩ = some s ∧
      truncateFactors s.A s.B s.rankCount = some (a1, b1) ∧
      compressBlock cfg g node ords = some ⟨BlockData.lowRank a1 b1, true⟩ := by
  rw [Option.map_eq_some'] at hraised
  obtain ⟨out, hout, hr⟩ := hraised
  obtain ⟨s, a1, b1, hloop, htr, houteq⟩ :=
    compressBlock_admissible_inv cfg g node ords out hadm hout
  refine ⟨s, a1, b1, hloop, htr, ?_⟩
  rw [hout, houteq]
  rw [houteq] at hr
  simp only [] at hr
  rw [hr]

/-- Witness for the amended C3 statement at the concrete 2×1 block. -/
theorem compressBlock_error_leaves_factors_witness :
    ((⟨(0, 2), (0, 1), true⟩ : BlockClusterTreeNode).admissible = true) ∧
    ((compressBlock ⟨1 / 10000, 5, 1⟩ (fun _ _ => 1) ⟨(0, 2), (0, 1), true⟩ (fun _ => 0)).map
      (fun o => o.raised) = some true) ∧
    (∃ s a1 b1,
      acaLoop ⟨1 / 10000, 5, 1⟩ (fun _ _ => 1) ⟨(0, 2), (0, 1), true⟩ (fun _ => 0)
        (min 5 (min 2 1)) 0
        ⟨Mat.ofFun 2 1 (fun _ _ => 0), Mat.ofFun 1 1 (fun _ _ => 0), ∅, 0⟩ = some s ∧
      truncateFactors s.A s.B s.rankCount = some (a1, b1) ∧
      compressBlock ⟨1 / 10000, 5, 1⟩ (fun _ _ => 1) ⟨(0, 2), (0, 1), true⟩ (fun _ => 0) =
        some ⟨BlockData.lowRank a1 b1, true⟩) :=
  ⟨by decide, by decide,
    compressBlock_error_leaves_factors ⟨1 / 10000, 5, 1⟩ (fun _ _ => 1)
      ⟨(0, 2), (0, 1), true⟩ (fun _ => 0) (by decide) (by decide)⟩

/-- C4 counterexample: the pivot drawn by `randomIndex` is determined by
the ordinal the shared `static std::random_device` emits, and nothing
else: two runs of the sampler on the same inputs that receive different
device output pick different pivot rows.  `std::random_device` accepts
no seed, so the premise "seeded identically" of the claim is not
realizable, and in actual runs the device output differs freely. -/
theorem randomIndex_depends_on_device_draw :
    (randomIndex (0, 2) ∅ 0).map Prod.fst = some 0 ∧
    (randomIndex (0, 2) ∅ 1).map Prod.fst = some 1 :=
  ⟨by decide, by decide⟩

/-- C4 (amended): determinism holds only relative to the stream of
ordinals the random device emits: `compressBlock` has no other source
of variation, so two runs on the same node that receive the same device
output produce the same pivot sequence and the same factors. -/
theorem compressBlock_deterministic_in_draws (cfg : AcaConfig)
    (g : Nat → Nat → ℚ) (node : BlockClusterTreeNode) (ords ords' : Nat → Nat)
    (h : ords = ords') :
    compressBlock cfg g node ords = compressBlock cfg g node ords' := by
  rw [h]

/-- Witness for the amended C4 statement. -/
theorem compressBlock_deterministic_in_draws_witness :
    ((fun _ => 0 : Nat → Nat) = (fun _ => 0 : Nat → Nat)) ∧
    compressBlock ⟨1 / 10000, 5, 1⟩ (fun _ _ => 1) ⟨(0, 2), (0, 1), true⟩ (fun _ => 0) =
      compressBlock ⟨1 / 10000, 5, 1⟩ (fun _ _ => 1) ⟨(0, 2), (0, 1), true⟩ (fun _ => 0) :=
  ⟨rfl, compressBlock_deterministic_in_draws ⟨1 / 10000, 5, 1⟩ (fun _ _ => 1)
    ⟨(0, 2), (0, 1), true⟩ (fun _ => 0) (fun _ => 0) rfl⟩

/-- C6: on every node whose admissible flag is false, `compressBlock`
returns the dense compressor's output without touching any ACA state,
and that output is the Dense block holding the accessor's evaluation
over the full row and column range. -/
theorem compressBlock_inadmissible_dense (cfg : AcaConfig) (g : Nat → Nat → ℚ)
    (node : BlockClusterTreeNode) (ords : Nat → Nat)
    (h : node.admissible = false) :
    compressBlock cfg g node ords = some ⟨denseCompressBlock g node, false⟩ ∧
    denseCompressBlock g node =
      BlockData.dense (computeMatrixBlock g node.rowClusterRange node.columnClusterRange) := by
  constructor
  · unfold compressBlock
    rw [if_pos h]
  · rfl

/-- Witness for C6 at a concrete inadmissible node. -/
theorem compressBlock_inadmissible_dense_witness :
    ((⟨(0, 2), (0, 3), false⟩ : BlockClusterTreeNode).admissible = false) ∧
    (compressBlock ⟨1 / 10000, 5, 1⟩ (fun i j => (i : ℚ) + (j : ℚ))
        ⟨(0, 2), (0, 3), false⟩ (fun _ => 0) =
      some ⟨denseCompressBlock (fun i j => (i : ℚ) + (j : ℚ)) ⟨(0, 2), (0, 3), false⟩, false⟩ ∧
     denseCompressBlock (fun i j => (i : ℚ) + (j : ℚ)) ⟨(0, 2), (0, 3), false⟩ =
       BlockData.dense (computeMatrixBlock (fun i j => (i : ℚ) + (j : ℚ)) (0, 2) (0, 3))) :=
  ⟨by decide, compressBlock_inadmissible_dense ⟨1 / 10000, 5, 1⟩
    (fun i j => (i : ℚ) + (j : ℚ)) ⟨(0, 2), (0, 3), false⟩ (fun _ => 0) (by decide)⟩

/-- C5: whenever `compressBlock` completes on an admissible block, the
emitted low-rank data has a final rank `k` with
`k ≤ min(maxRank, rows, cols)` (the loop performs at most that many
trials, each adding at most one rank), the returned `A` has exactly `k`
columns and the returned `B` exactly `k` rows (truncation leaves no
residual zero padding), and on an all-zero accessor `k = 0`. -/
theorem compressBlock_rank_bound (cfg : AcaConfig) (g : Nat → Nat → ℚ)
    (node : BlockClusterTreeNode) (ords : Nat → Nat)
    (hadm : node.admissible = true)
    (hsome : (compressBlock cfg g node ords).isSome = true) :
    ∃ k, (compressBlock cfg g node ords).map (fun o => o.data.lowRankCols) =
        some (some k) ∧
      (compressBlock cfg g node ords).map (fun o => o.data.lowRankRowsOfB) =
        some (some k) ∧
      k ≤ min cfg.maxRank (min (node.rowClusterRange.2 - node.rowClusterRange.1)
        (node.columnClusterRange.2 - node.columnClusterRange.1)) ∧
      ((∀ i j, g i j = 0) → k = 0) := by
  rw [Option.isSome_iff_exists] at hsome
  obtain ⟨out, hout⟩ := hsome
  obtain ⟨s, a1, b1, hloop, htr, houteq⟩ :=
    compressBlock_admissible_inv cfg g node ords out hadm hout
  have hInv : s.rankCount ≤ s.A.cols ∧ s.A.cols = s.B.rows := by
    refine acaLoop_preserve cfg g node ords
      (fun t => t.rankCount ≤ t.A.cols ∧ t.A.cols = t.B.rows) ?_ _ _ _ _
      ⟨Nat.zero_le _, rfl⟩ hloop
    intro ord t t' brk ht hstep
    obtain ⟨row, _, _, _, hcase⟩ := acaStep_inv _ _ _ _ _ _ _ hstep
    rcases hcase with ⟨hA, hB, hrk, _⟩ | ⟨hrk, hlt, hcols, hrows⟩
    · rw [hA, hB, hrk]
      exact ht
    · constructor
      · omega
      · rw [hcols, hrows]
        by_cases hc : t.rankCount = t.A.cols
        · rw [if_pos hc, if_pos hc, ht.2]
        · rw [if_neg hc, if_neg hc, ht.2]
  have hrank : s.rankCount ≤
      min cfg.maxRank (min (node.rowClusterRange.2 - node.rowClusterRange.1)
        (node.columnClusterRange.2 - node.columnClusterRange.1)) := by
    have := acaLoop_rank_le cfg g node ords _ _ _ _ hloop
    simpa using this
  have hdims := truncateFactors_dims _ _ _ _ _ hInv.1 hInv.2 htr
  refine ⟨s.rankCount, ?_, ?_, hrank, ?_⟩
  · rw [hout, houteq]
    simp [BlockData.lowRankCols, hdims.1]
  · rw [hout, houteq]
    simp [BlockData.lowRankRowsOfB, hdims.2.1]
  · intro hg
    have hz : (∀ i j, s.A.entry i j = 0) ∧ (∀ i j, s.B.entry i j = 0) ∧
        s.rankCount = 0 := by
      refine acaLoop_preserve cfg g node ords
        (fun t => (∀ i j, t.A.entry i j = 0) ∧ (∀ i j, t.B.entry i j = 0) ∧
          t.rankCount = 0) ?_ _ _ _ _ ?_ hloop
      · intro ord t t' brk ht hstep
        exact acaStep_zero cfg g node ord t t' brk hg ht hstep
      · refine ⟨?_, ?_, rfl⟩ <;> intro i j <;> simp [Mat.ofFun]
    exact hz.2.2

/-- Witness for C5 at a concrete admissible all-zero 2×2 block. -/
theorem compressBlock_rank_bound_witness :
    ((⟨(0, 2), (0, 2), true⟩ : BlockClusterTreeNode).admissible = true) ∧
    ((compressBlock ⟨1 / 10000, 5, 2⟩ (fun _ _ => 0) ⟨(0, 2), (0, 2), true⟩
        (fun _ => 0)).isSome = true) ∧
    (∃ k, (compressBlock ⟨1 / 10000, 5, 2⟩ (fun _ _ => 0) ⟨(0, 2), (0, 2), true⟩
          (fun _ => 0)).map (fun o => o.data.lowRankCols) = some (some k) ∧
      (compressBlock ⟨1 / 10000, 5, 2⟩ (fun _ _ => 0) ⟨(0, 2), (0, 2), true⟩
          (fun _ => 0)).map (fun o => o.data.lowRankRowsOfB) = some (some k) ∧
      k ≤ min 5 (min (2 - 0) (2 - 0)) ∧
      ((∀ i j : Nat, (0 : ℚ) = 0) → k = 0)) :=
  ⟨by decide, by decide,
    compressBlock_rank_bound ⟨1 / 10000, 5, 2⟩ (fun _ _ => 0)
      ⟨(0, 2), (0, 2), true⟩ (fun _ => 0) (by decide) (by decide)⟩

/-- Whether the residual row at pivot row `row` has its maximal absolute
entry below the numerical floor (`none` when its computation dies); a
decidable observation used to state the degenerate-pivot claims. -/
def rowResidualDegenerate (g : Nat → Nat → ℚ) (node : BlockClusterTreeNode)
    (s : AcaState) (row : Nat) : Option Bool :=
  ((evaluateMatMinusLowRank g node (row, row + 1) node.columnClusterRange s.A s.B).bind
    Mat.cwiseAbsMax).map fun t => decide (t.1 < degenerateFloor)

theorem rowResidualDegenerate_inv (g : Nat → Nat → ℚ)
    (node : BlockClusterTreeNode) (s : AcaState) (row : Nat) (b : Bool)
    (h : rowResidualDegenerate g node s row = some b) :
    ∃ nr val mr mc,
      evaluateMatMinusLowRank g node (row, row + 1) node.columnClusterRange s.A s.B =
        some nr ∧
      nr.cwiseAbsMax = some (val, mr, mc) ∧ decide (val < degenerateFloor) = b := by
  unfold rowResidualDegenerate at h
  rw [Option.map_eq_some'] at h
  obtain ⟨t, ht, hb⟩ := h
  rw [Option.bind_eq_some] at ht
  obtain ⟨nr, hnr, hmax⟩ := ht
  obtain ⟨val, mr, mc⟩ := t
  exact ⟨nr, val, mr, mc, hnr, hmax, hb⟩

/-- C7: a trial whose residual row has maximal absolute value below the
fixed floor `1e-12` is discarded: the step succeeds without error, the
factors and `rankCount` are unchanged, the sampled row stays marked used
(so it is never resampled later in the call), and the loop simply moves
on to the next trial, consuming one unit of the iteration budget. -/
theorem acaStep_degenerate_pivot (cfg : AcaConfig) (g : Nat → Nat → ℚ)
    (node : BlockClusterTreeNode) (ords : Nat → Nat) (ord : Nat)
    (s : AcaState) (row : Nat) (used' : Finset Nat)
    (hri : randomIndex node.rowClusterRange s.previousRowIndices ord = some (row, used'))
    (hdeg : rowResidualDegenerate g node s row = some true) :
    acaStep cfg g node ord s = some (⟨s.A, s.B, used', s.rankCount⟩, false) ∧
    used' = insert row s.previousRowIndices ∧
    row ∈ used' ∧
    (∀ ord2 r2 u2, randomIndex node.rowClusterRange used' ord2 = some (r2, u2) →
      r2 ≠ row) ∧
    (∀ fuel i, ords i = ord →
      acaLoop cfg g node ords (fuel + 1) i s =
        acaLoop cfg g node ords fuel (i + 1) ⟨s.A, s.B, used', s.rankCount⟩) := by
  obtain ⟨nr, val, mr, mc, hev, hmax, hval⟩ := rowResidualDegenerate_inv g node s row true hdeg
  rw [decide_eq_true_eq] at hval
  obtain ⟨hins, _⟩ := randomIndex_some_inv _ _ _ _ _ hri
  have hstep : acaStep cfg g node ord s = some (⟨s.A, s.B, used', s.rankCount⟩, false) := by
    unfold acaStep
    rw [hri]
    simp only []
    rw [hev]
    simp only []
    rw [hmax]
    simp only []
    rw [if_pos hval]
  refine ⟨hstep, hins, hins ▸ Finset.mem_insert_self row s.previousRowIndices, ?_, ?_⟩
  · intro ord2 r2 u2 h2
    obtain ⟨_, hnot⟩ := randomIndex_some_inv _ _ _ _ _ h2
    intro he
    exact hnot (he ▸ (hins ▸ Finset.mem_insert_self row s.previousRowIndices))
  · intro fuel i hi
    unfold acaLoop
    rw [hi, hstep]
    simp only [Bool.false_eq_true, if_false]
    cases fuel <;> rfl

/-- Witness for C7: row 0 of an all-zero admissible 1×2 block is
degenerate and gets discarded exactly as described. -/
theorem acaStep_degenerate_pivot_witness :
    (randomIndex (0, 1) ∅ 0 = some (0, {0})) ∧
    (rowResidualDegenerate (fun _ _ => 0) ⟨(0, 1), (0, 2), true⟩
      ⟨Mat.ofFun 1 2 (fun _ _ => 0), Mat.ofFun 2 2 (fun _ _ => 0), ∅, 0⟩ 0 = some true) ∧
    (acaStep ⟨1 / 10000, 5, 2⟩ (fun _ _ => 0) ⟨(0, 1), (0, 2), true⟩ 0
        ⟨Mat.ofFun 1 2 (fun _ _ => 0), Mat.ofFun 2 2 (fun _ _ => 0), ∅, 0⟩ =
      some (⟨Mat.ofFun 1 2 (fun _ _ => 0), Mat.ofFun 2 2 (fun _ _ => 0), {0}, 0⟩, false) ∧
     ({0} : Finset Nat) = insert 0 (∅ : Finset Nat) ∧
     0 ∈ ({0} : Finset Nat) ∧
     (∀ ord2 r2 u2, randomIndex (0, 1) {0} ord2 = some (r2, u2) → r2 ≠ 0) ∧
     (∀ fuel i, (fun _ => 0 : Nat → Nat) i = 0 →
       acaLoop ⟨1 / 10000, 5, 2⟩ (fun _ _ => 0) ⟨(0, 1), (0, 2), true⟩ (fun _ => 0)
           (fuel + 1) i
           ⟨Mat.ofFun 1 2 (fun _ _ => 0), Mat.ofFun 2 2 (fun _ _ => 0), ∅, 0⟩ =
         acaLoop ⟨1 / 10000, 5, 2⟩ (fun _ _ => 0) ⟨(0, 1), (0, 2), true⟩ (fun _ => 0)
           fuel (i + 1)
           ⟨Mat.ofFun 1 2 (fun _ _ => 0), Mat.ofFun 2 2 (fun _ _ => 0), {0}, 0⟩)) :=
  ⟨by decide, by decide,
    acaStep_degenerate_pivot ⟨1 / 10000, 5, 2⟩ (fun _ _ => 0) ⟨(0, 1), (0, 2), true⟩
      (fun _ => 0) 0
      ⟨Mat.ofFun 1 2 (fun _ _ => 0), Mat.ofFun 2 2 (fun _ _ => 0), ∅, 0⟩ 0 {0}
      (by decide) (by decide)⟩

/-- C8: in every trial that stores a rank-one term, the loop breaks
immediately after the store exactly when
`‖newCol‖ · ‖newRow‖ < eps · frobeniusNorm`, where the Frobenius norm in
the right-hand side is that of the approximation held in the factors
*before* the new term was stored (the source computes it before the
growth and store steps); otherwise the loop continues with the next
trial. -/
theorem acaStep_stopping_test (cfg : AcaConfig) (g : Nat → Nat → ℚ)
    (node : BlockClusterTreeNode) (ord : Nat) (s : AcaState)
    (row : Nat) (used' : Finset Nat)
    (hri : randomIndex node.rowClusterRange s.previousRowIndices ord = some (row, used'))
    (hnd : rowResidualDegenerate g node s row = some false)
    (hstep : (acaStep cfg g node ord s).isSome = true) :
    ∃ nr val mr mc newCol s',
      evaluateMatMinusLowRank g node (row, row + 1) node.columnClusterRange s.A s.B =
        some nr ∧
      nr.cwiseAbsMax = some (val, mr, mc) ∧
      ¬ val < degenerateFloor ∧
      evaluateMatMinusLowRank g node node.rowClusterRange
        (mc + node.columnClusterRange.1, mc + node.columnClusterRange.1 + 1) s.A s.B =
        some newCol ∧
      acaStep cfg g node ord s =
        some (s', stopTest cfg newCol (nr.scalarDiv (nr.entry 0 mc))
          (lowRankFrobSq s.A s.B)) ∧
      s'.rankCount = s.rankCount + 1 ∧
      (stopTest cfg newCol (nr.scalarDiv (nr.entry 0 mc)) (lowRankFrobSq s.A s.B) = true ↔
        Real.sqrt (newCol.frobSq : ℝ) *
            Real.sqrt (((nr.scalarDiv (nr.entry 0 mc)).frobSq : ℝ)) <
          (cfg.eps : ℝ) * Real.sqrt ((lowRankFrobSq s.A s.B : ℝ))) ∧
      (∀ ords fuel i, ords i = ord →
        (stopTest cfg newCol (nr.scalarDiv (nr.entry 0 mc)) (lowRankFrobSq s.A s.B) =
            true →
          acaLoop cfg g node ords (fuel + 1) i s = some s') ∧
        (stopTest cfg newCol (nr.scalarDiv (nr.entry 0 mc)) (lowRankFrobSq s.A s.B) =
            false →
          acaLoop cfg g node ords (fuel + 1) i s =
            acaLoop cfg g node ords fuel (i + 1) s')) := by
  obtain ⟨nr, val, mr, mc, hev, hmax, hvalb⟩ :=
    rowResidualDegenerate_inv g node s row false hnd
  rw [decide_eq_false_iff_not] at hvalb
  cases hec : evaluateMatMinusLowRank g node node.rowClusterRange
      (mc + node.columnClusterRange.1, mc + node.columnClusterRange.1 + 1) s.A s.B with
  | none =>
    exfalso
    have hd : acaStep cfg g node ord s = none := by
      unfold acaStep
      rw [hri]
      simp only []
      rw [hev]
      simp only []
      rw [hmax]
      simp only []
      rw [if_neg hvalb, hec]
    rw [hd] at hstep
    exact absurd hstep (by simp)
  | some newCol =>
  cases hsc : (if s.rankCount = s.A.cols then growFactors cfg.resizeThreshold s.A s.B
      else (s.A, s.B)).1.setColChecked s.rankCount newCol with
  | none =>
    exfalso
    have hd : acaStep cfg g node ord s = none := by
      unfold acaStep
      rw [hri]
      simp only []
      rw [hev]
      simp only []
      rw [hmax]
      simp only []
      rw [if_neg hvalb, hec]
      simp only []
      rw [hsc]
    rw [hd] at hstep
    exact absurd hstep (by simp)
  | some newA =>
  cases hsr : (if s.rankCount = s.A.cols then growFactors cfg.resizeThreshold s.A s.B
      else (s.A, s.B)).2.setRowChecked s.rankCount (nr.scalarDiv (nr.entry 0 mc)) with
  | none =>
    exfalso
    have hd : acaStep cfg g node ord s = none := by
      unfold acaStep
      rw [hri]
      simp only []
      rw [hev]
      simp only []
      rw [hmax]
      simp only []
      rw [if_neg hvalb, hec]
      simp only []
      rw [hsc]
      simp only []
      rw [hsr]
    rw [hd] at hstep
    exact absurd hstep (by simp)
  | some newB =>
  have hstepEq : acaStep cfg g node ord s =
      some (⟨newA, newB, used', s.rankCount + 1⟩,
        stopTest cfg newCol (nr.scalarDiv (nr.entry 0 mc)) (lowRankFrobSq s.A s.B)) := by
    unfold acaStep
    rw [hri]
    simp only []
    rw [hev]
    simp only []
    rw [hmax]
    simp only []
    rw [if_neg hvalb, hec]
    simp only []
    rw [hsc]
    simp only []
    rw [hsr]
  refine ⟨nr, val, mr, mc, newCol, ⟨newA, newB, used', s.rankCount + 1⟩,
    hev, hmax, hvalb, hec, hstepEq, rfl,
    stopTest_iff_sqrt cfg newCol _ _ (lowRankFrobSq_nonneg s.A s.B), ?_⟩
  intro ords fuel i hi
  constructor
  · intro hb
    unfold acaLoop
    rw [hi, hstepEq, hb]
    simp
  · intro hb
    unfold acaLoop
    rw [hi, hstepEq, hb]
    simp only [Bool.false_eq_true, if_false]
    cases fuel <;> rfl

/-- Witness for C8 at the rank-one 2×1 block: the first trial is
non-degenerate and stores a term, and the stopping decision matches the
norm comparison. -/
theorem acaStep_stopping_test_witness :
    (randomIndex (0, 2) ∅ 0 = some (0, {0})) ∧
    (rowResidualDegenerate (fun _ _ => 1) ⟨(0, 2), (0, 1), true⟩
      ⟨Mat.ofFun 2 1 (fun _ _ => 0), Mat.ofFun 1 1 (fun _ _ => 0), ∅, 0⟩ 0 =
        some false) ∧
    ((acaStep ⟨1 / 10000, 5, 1⟩ (fun _ _ => 1) ⟨(0, 2), (0, 1), true⟩ 0
      ⟨Mat.ofFun 2 1 (fun _ _ => 0), Mat.ofFun 1 1 (fun _ _ => 0), ∅, 0⟩).isSome = true) ∧
    (∃ nr val mr mc newCol s',
      evaluateMatMinusLowRank (fun _ _ => 1) ⟨(0, 2), (0, 1), true⟩ (0, 0 + 1) (0, 1)
        (Mat.ofFun 2 1 (fun _ _ => 0)) (Mat.ofFun 1 1 (fun _ _ => 0)) = some nr ∧
      nr.cwiseAbsMax = some (val, mr, mc) ∧
      ¬ val < degenerateFloor ∧
      evaluateMatMinusLowRank (fun _ _ => 1) ⟨(0, 2), (0, 1), true⟩ (0, 2)
        (mc + 0, mc + 0 + 1)
        (Mat.ofFun 2 1 (fun _ _ => 0)) (Mat.ofFun 1 1 (fun _ _ => 0)) = some newCol ∧
      acaStep ⟨1 / 10000, 5, 1⟩ (fun _ _ => 1) ⟨(0, 2), (0, 1), true⟩ 0
          ⟨Mat.ofFun 2 1 (fun _ _ => 0), Mat.ofFun 1 1 (fun _ _ => 0), ∅, 0⟩ =
        some (s', stopTest ⟨1 / 10000, 5, 1⟩ newCol (nr.scalarDiv (nr.entry 0 mc))
          (lowRankFrobSq (Mat.ofFun 2 1 (fun _ _ => 0)) (Mat.ofFun 1 1 (fun _ _ => 0)))) ∧
      s'.rankCount = 0 + 1 ∧
      (stopTest ⟨1 / 10000, 5, 1⟩ newCol (nr.scalarDiv (nr.entry 0 mc))
          (lowRankFrobSq (Mat.ofFun 2 1 (fun _ _ => 0)) (Mat.ofFun 1 1 (fun _ _ => 0))) =
            true ↔
        Real.sqrt (newCol.frobSq : ℝ) *
            Real.sqrt (((nr.scalarDiv (nr.entry 0 mc)).frobSq : ℝ)) <
          ((1 / 10000 : ℚ) : ℝ) *
            Real.sqrt ((lowRankFrobSq (Mat.ofFun 2 1 (fun _ _ => 0))
              (Mat.ofFun 1 1 (fun _ _ => 0)) : ℝ))) ∧
      (∀ ords fuel i, ords i = 0 →
        (stopTest ⟨1 / 10000, 5, 1⟩ newCol (nr.scalarDiv (nr.entry 0 mc))
            (lowRankFrobSq (Mat.ofFun 2 1 (fun _ _ => 0))
              (Mat.ofFun 1 1 (fun _ _ => 0))) = true →
          acaLoop ⟨1 / 10000, 5, 1⟩ (fun _ _ => 1) ⟨(0, 2), (0, 1), true⟩ ords (fuel + 1) i
            ⟨Mat.ofFun 2 1 (fun _ _ => 0), Mat.ofFun 1 1 (fun _ _ => 0), ∅, 0⟩ = some s') ∧
        (stopTest ⟨1 / 10000, 5, 1⟩ newCol (nr.scalarDiv (nr.entry 0 mc))
            (lowRankFrobSq (Mat.ofFun 2 1 (fun _ _ => 0))
              (Mat.ofFun 1 1 (fun _ _ => 0))) = false →
          acaLoop ⟨1 / 10000, 5, 1⟩ (fun _ _ => 1) ⟨(0, 2), (0, 1), true⟩ ords (fuel + 1) i
              ⟨Mat.ofFun 2 1 (fun _ _ => 0), Mat.ofFun 1 1 (fun _ _ => 0), ∅, 0⟩ =
            acaLoop ⟨1 / 10000, 5, 1⟩ (fun _ _ => 1) ⟨(0, 2), (0, 1), true⟩ ords fuel
              (i + 1) s'))) :=
  ⟨by decide, by decide, by decide,
    acaStep_stopping_test ⟨1 / 10000, 5, 1⟩ (fun _ _ => 1) ⟨(0, 2), (0, 1), true⟩ 0
      ⟨Mat.ofFun 2 1 (fun _ _ => 0), Mat.ofFun 1 1 (fun _ _ => 0), ∅, 0⟩ 0 {0}
      (by decide) (by decide) (by decide)⟩

/-- C9: for a non-empty range `[a, b)` and a used set leaving at least
one unused index, `randomIndex` with a uniformly drawn ordinal below the
remaining count returns exactly the `ordinal`-th unused index of the
range: the returned index lies in the range, was not previously used,
and is inserted into the used set; moreover the used set threaded
through the ACA loop only ever grows (it persists across the iterations
of one `compressBlock` call and is never reset). -/
theorem randomIndex_samples_unused (a b : Nat) (used : Finset Nat) (ordinal : Nat)
    (hab : a ≤ b) (hb : b < 2 ^ 64)
    (hsub : ∀ x ∈ used, a ≤ x ∧ x < b)
    (hord : ordinal < numberOfPossibleIndices (a, b) used) :
    (∃ h : ordinal < (unusedList used a (b - a)).length,
      randomIndex (a, b) used ordinal =
        some ((unusedList used a (b - a)).get ⟨ordinal, h⟩,
          insert ((unusedList used a (b - a)).get ⟨ordinal, h⟩) used) ∧
      a ≤ (unusedList used a (b - a)).get ⟨ordinal, h⟩ ∧
      (unusedList used a (b - a)).get ⟨ordinal, h⟩ < b ∧
      (unusedList used a (b - a)).get ⟨ordinal, h⟩ ∉ used) ∧
    (∀ cfg g node ords fuel i s s',
      acaLoop cfg g node ords fuel i s = some s' →
        s.previousRowIndices ⊆ s'.previousRowIndices) :=
  ⟨randomIndex_correct a b used ordinal hab hb hsub hord,
    fun cfg g node ords fuel i s s' h => acaLoop_used_mono cfg g node ords fuel i s s' h⟩

/-- Witness for C9: range `[0, 3)` with `1` already used; ordinal `1`
selects the second unused index, which is `2`. -/
theorem randomIndex_samples_unused_witness :
    ((0 : Nat) ≤ 3) ∧ ((3 : Nat) < 2 ^ 64) ∧
    (∀ x ∈ ({1} : Finset Nat), 0 ≤ x ∧ x < 3) ∧
    (1 < numberOfPossibleIndices (0, 3) ({1} : Finset Nat)) ∧
    ((∃ h : 1 < (unusedList {1} 0 (3 - 0)).length,
      randomIndex (0, 3) {1} 1 =
        some ((unusedList {1} 0 (3 - 0)).get ⟨1, h⟩,
          insert ((unusedList {1} 0 (3 - 0)).get ⟨1, h⟩) {1}) ∧
      0 ≤ (unusedList {1} 0 (3 - 0)).get ⟨1, h⟩ ∧
      (unusedList {1} 0 (3 - 0)).get ⟨1, h⟩ < 3 ∧
      (unusedList {1} 0 (3 - 0)).get ⟨1, h⟩ ∉ ({1} : Finset Nat)) ∧
    (∀ cfg g node ords fuel i s s',
      acaLoop cfg g node ords fuel i s = some s' →
        s.previousRowIndices ⊆ s'.previousRowIndices)) :=
  ⟨by decide, by decide, by decide, by decide,
    randomIndex_samples_unused 0 3 {1} 1 (by decide) (by decide) (by decide) (by decide)⟩

/-- C10: inside the ACA loop on an admissible block, every call of
`randomIndex` happens with `i` used rows for trial index
`i < min(maxRank, rows, cols)`, so `range[1] - range[0] -
previousIndices.size()` is computed without unsigned wrap-around and
equals `rows - i ≥ 1`, and the scan terminates at an index inside the
row range; the step then restores the invariant with `i + 1` used
rows. -/
theorem randomIndex_in_loop_safe (cfg : AcaConfig) (g : Nat → Nat → ℚ)
    (node : BlockClusterTreeNode) (ords : Nat → Nat) (a b c d : Nat)
    (hrow : node.rowClusterRange = (a, b))
    (hcol : node.columnClusterRange = (c, d))
    (hab : a ≤ b) (hb : b < 2 ^ 64)
    (i : Nat) (s : AcaState)
    (hsub : ∀ x ∈ s.previousRowIndices, a ≤ x ∧ x < b)
    (hcard : s.previousRowIndices.card = i)
    (hi : i < min cfg.maxRank (min (b - a) (d - c)))
    (hord : ords i < b - a - i) :
    numberOfPossibleIndices (a, b) s.previousRowIndices = b - a - i ∧
    1 ≤ b - a - i ∧
    (∃ idx, randomIndex (a, b) s.previousRowIndices (ords i) =
        some (idx, insert idx s.previousRowIndices) ∧
      a ≤ idx ∧ idx < b ∧ idx ∉ s.previousRowIndices) ∧
    (∀ s' brk, acaStep cfg g node (ords i) s = some (s', brk) →
      s'.previousRowIndices.card = i + 1 ∧
      ∀ x ∈ s'.previousRowIndices, a ≤ x ∧ x < b) := by
  have hilt : i < b - a := by omega
  have hnposs : numberOfPossibleIndices (a, b) s.previousRowIndices = b - a - i := by
    unfold numberOfPossibleIndices
    rw [sizeSub_of_le b a hab (by omega)]
    rw [hcard, sizeSub_of_le (b - a) i (by omega) (by omega)]
  have hord' : ords i < numberOfPossibleIndices (a, b) s.previousRowIndices := by
    rw [hnposs]
    exact hord
  obtain ⟨hlen, heq, h1, h2, h3⟩ :=
    randomIndex_correct a b s.previousRowIndices (ords i) hab hb hsub hord'
  refine ⟨hnposs, by omega, ⟨_, heq, h1, h2, h3⟩, ?_⟩
  intro s' brk hstep
  obtain ⟨row, hri2, hins, hnotmem, _⟩ := acaStep_inv _ _ _ _ _ _ _ hstep
  rw [hrow] at hri2
  rw [heq] at hri2
  simp only [Option.some.injEq, Prod.mk.injEq] at hri2
  obtain ⟨hrow_eq, _⟩ := hri2
  constructor
  · rw [hins, Finset.card_insert_of_not_mem hnotmem, hcard]
  · intro x hx
    rw [hins] at hx
    rcases Finset.mem_insert.mp hx with hx | hx
    · subst hx
      omega
    · exact hsub x hx

/-- Witness for C10 at trial 0 on an admissible 2×2 block with no used
rows yet. -/
theorem randomIndex_in_loop_safe_witness :
    ((⟨(0, 2), (0, 2), true⟩ : BlockClusterTreeNode).rowClusterRange = (0, 2)) ∧
    ((⟨(0, 2), (0, 2), true⟩ : BlockClusterTreeNode).columnClusterRange = (0, 2)) ∧
    ((0 : Nat) ≤ 2) ∧ ((2 : Nat) < 2 ^ 64) ∧
    (∀ x ∈ (∅ : Finset Nat), 0 ≤ x ∧ x < 2) ∧
    ((∅ : Finset Nat).card = 0) ∧
    (0 < min 5 (min (2 - 0) (2 - 0))) ∧
    ((fun _ => 0 : Nat → Nat) 0 < 2 - 0 - 0) ∧
    (numberOfPossibleIndices (0, 2)
        (⟨Mat.ofFun 2 2 (fun _ _ => 0), Mat.ofFun 2 2 (fun _ _ => 0), ∅,
          0⟩ : AcaState).previousRowIndices = 2 - 0 - 0 ∧
     1 ≤ 2 - 0 - 0 ∧
     (∃ idx, randomIndex (0, 2)
          (⟨Mat.ofFun 2 2 (fun _ _ => 0), Mat.ofFun 2 2 (fun _ _ => 0), ∅,
            0⟩ : AcaState).previousRowIndices ((fun _ => 0 : Nat → Nat) 0) =
         some (idx, insert idx (⟨Mat.ofFun 2 2 (fun _ _ => 0),
           Mat.ofFun 2 2 (fun _ _ => 0), ∅, 0⟩ : AcaState).previousRowIndices) ∧
       0 ≤ idx ∧ idx < 2 ∧ idx ∉ (⟨Mat.ofFun 2 2 (fun _ _ => 0),
         Mat.ofFun 2 2 (fun _ _ => 0), ∅, 0⟩ : AcaState).previousRowIndices) ∧
     (∀ s' brk, acaStep ⟨1 / 10000, 5, 2⟩ (fun _ _ => 0) ⟨(0, 2), (0, 2), true⟩
          ((fun _ => 0 : Nat → Nat) 0)
          ⟨Mat.ofFun 2 2 (fun _ _ => 0), Mat.ofFun 2 2 (fun _ _ => 0), ∅, 0⟩ =
            some (s', brk) →
        s'.previousRowIndices.card = 0 + 1 ∧
        ∀ x ∈ s'.previousRowIndices, 0 ≤ x ∧ x < 2)) :=
  ⟨by decide, by decide, by decide, by decide, by decide, by decide, by decide, by decide,
    randomIndex_in_loop_safe ⟨1 / 10000, 5, 2⟩ (fun _ _ => 0) ⟨(0, 2), (0, 2), true⟩
      (fun _ => 0) 0 2 0 2 (by decide) (by decide) (by decide) (by decide) 0
      ⟨Mat.ofFun 2 2 (fun _ _ => 0), Mat.ofFun 2 2 (fun _ _ => 0), ∅, 0⟩
      (by decide) (by decide) (by decide) (by decide)⟩

end Hmat
